import Mathlib

/-!
Verification of the thresholding-and-masking pipeline of `flimfitutils`
(`threshold-data.py` and `fileutils.py`).

The numpy grids are embedded as shape-carrying functions over ℚ, masked
arrays as a data grid paired with a boolean mask grid, and the dict-based
datasets as association lists from quantity-kind strings to grids.
Fallible operations (exceptions raised by the Python code) are embedded as
`Option`.
-/

namespace FlimFit

/-- A 2-D numpy array of floats, embedded as a height, a width and a total
value function over ℚ (only indices `i < h`, `j < w` are meaningful). -/
structure Arr where
  h : ℕ
  w : ℕ
  val : ℕ → ℕ → ℚ

/-- A 2-D boolean numpy array (used for invalidity masks). -/
structure BArr where
  h : ℕ
  w : ℕ
  val : ℕ → ℕ → Bool

/-- A `numpy.ma` masked array: raw data plus an invalidity mask.
`mask.val i j = true` means pixel `(i, j)` is invalid. -/
structure MArr where
  data : Arr
  mask : BArr

/-- `np.zeros_like(a, dtype=bool)`: an all-false mask with `a`'s shape. -/
def zeros_like (a : Arr) : BArr :=
  ⟨a.h, a.w, fun _ _ => false⟩

/-- Elementwise boolean OR of two masks (numpy `|`); the operands have the
same shape in every use in the source, and the result keeps the left shape. -/
def bor (m1 m2 : BArr) : BArr :=
  ⟨m1.h, m1.w, fun i j => m1.val i j || m2.val i j⟩

/-- The elementwise threshold test of `threshold_reasonably`
(threshold-data.py line 103):
`(np.array(min_thresh) > data) | (data > np.array(max_thresh))`. -/
def thresholdFailed (min_thresh max_thresh : ℚ) (a : Arr) : BArr :=
  ⟨a.h, a.w, fun i j =>
    decide (min_thresh > a.val i j) || decide (a.val i j > max_thresh)⟩

/-- `free_bound_ratio` (threshold-data.py lines 68-85): combined mask is
`ma.getmask(m1) | ma.getmask(m2) | (m1.data <= 0) | (m2.data <= 0)` and the
data is the elementwise quotient `m1.data / m2.data`.  The Python code
computes the quotient with `np.errstate` ignoring division by zero; in ℚ
division by zero yields 0, which only ever happens at pixels the mask marks
invalid. -/
def free_bound_ratio (m1 m2 : MArr) : MArr :=
  { data := ⟨m1.data.h, m1.data.w, fun i j => m1.data.val i j / m2.data.val i j⟩
    mask := ⟨m1.mask.h, m1.mask.w, fun i j =>
      m1.mask.val i j || m2.mask.val i j ||
        decide (m1.data.val i j ≤ 0) || decide (m2.data.val i j ≤ 0)⟩ }

/-- A Python dict of grids, embedded as an association list in insertion
order (`list(d.keys())[0]` is the head's key). -/
def Dataset := List (String × Arr)

/-- A threshold specification: quantity kind ↦ (min, max), in insertion
order. -/
def Thresholds := List (String × ℚ × ℚ)

/-- The mask-accumulation loop of `threshold_reasonably` (threshold-data.py
lines 96-107): starting from `init`, for each threshold entry whose key is
present in the dataset, OR in the elementwise threshold test; absent keys
are skipped by the `continue`. -/
def combinedMaskFold (dataset : List (String × Arr))
    (thresholds : List (String × ℚ × ℚ)) (init : BArr) : BArr :=
  List.foldl
    (fun mask t =>
      match dataset.lookup t.1 with
      | none => mask
      | some a => bor mask (thresholdFailed t.2.1 t.2.2 a))
    init thresholds

/-- Python dict assignment `d[k] = v` on an association list: overwrite the
existing binding if the key is present, otherwise append at the end. -/
def dictInsert {α : Type} (k : String) (v : α) (l : List (String × α)) :
    List (String × α) :=
  if (l.lookup k).isSome then
    l.map (fun p => if p.1 == k then (k, v) else p)
  else l ++ [(k, v)]

/-- `ma.masked_array(data, mask=combined_mask)` (threshold-data.py line
119): wrap a plain grid with the given mask. -/
def wrapMask (cm : BArr) (a : Arr) : MArr :=
  ⟨a, cm⟩

/-- Body of `threshold_reasonably` for a non-empty dataset with head grid
`a0` (the grid of `first_key`): build the combined mask starting from
`np.zeros_like(dataset[first_key], dtype=bool)`, wrap every grid with that
one mask, and when both `a1` and `a2` are present add the derived
`ar = free_bound_ratio(new_dataset['a1'], new_dataset['a2'])` entry. -/
def thresholdApply (k0 : String) (a0 : Arr) (rest : List (String × Arr))
    (thresholds : List (String × ℚ × ℚ)) : List (String × MArr) :=
  let dataset := (k0, a0) :: rest
  let cm := combinedMaskFold dataset thresholds (zeros_like a0)
  let nd := dataset.map (fun p => (p.1, wrapMask cm p.2))
  match nd.lookup "a1", nd.lookup "a2" with
  | some m1, some m2 => dictInsert "ar" (free_bound_ratio m1 m2) nd
  | _, _ => nd

/-- `threshold_reasonably(dataset, thresholds)` (threshold-data.py lines
87-122).  `first_key = list(dataset.keys())[0]` raises `IndexError` on an
empty dataset, embedded as `none`; otherwise the function always returns
the new dataset. -/
def threshold_reasonably (dataset : List (String × Arr))
    (thresholds : List (String × ℚ × ℚ)) : Option (List (String × MArr)) :=
  match dataset with
  | [] => none
  | (k0, a0) :: rest => some (thresholdApply k0 a0 rest thresholds)

/-- The number of masked (true) pixels of a mask, over its own shape. -/
def maskedCount (m : BArr) : ℕ :=
  ∑ i ∈ Finset.range m.h, ∑ j ∈ Finset.range m.w,
    if m.val i j then 1 else 0

/-- Zero-padded access into a grid: the value at an integer position, or 0
outside the bounds (scipy `boundary='fill', fillvalue=0`). -/
def padVal (a : Arr) (i j : ℤ) : ℚ :=
  if 0 ≤ i ∧ i < a.h ∧ 0 ≤ j ∧ j < a.w then a.val i.toNat j.toNat else 0

/-- `scipy.signal.convolve2d(a, K, boundary='fill', mode='same',
fillvalue=0)` for a kernel of shape `kh × kw` (odd sides in the only use in
the source): the central `a.h × a.w` part of the full zero-padded 2-D
convolution. -/
def convolve2d (a : Arr) (K : ℕ → ℕ → ℚ) (kh kw : ℕ) : Arr :=
  ⟨a.h, a.w, fun i j =>
    ∑ k ∈ Finset.range kh, ∑ l ∈ Finset.range kw,
      K k l * padVal a ((i : ℤ) + ((kh - 1) / 2 : ℕ) - k)
                      ((j : ℤ) + ((kw - 1) / 2 : ℕ) - l)⟩

/-- `add_binned_photons` (threshold-data.py lines 125-131): convolve the
`photons` grid with an all-ones `(2*BHbin+1) × (2*BHbin+1)` kernel
(`np.ones`), zero-filled boundary, same-shape output, and store the result
under `binned_photons`.  `dataset['photons']` raises `KeyError` when the
key is absent, embedded as `none`. -/
def add_binned_photons (dataset : List (String × Arr)) (BHbin : ℕ) :
    Option (List (String × Arr)) :=
  match dataset.lookup "photons" with
  | none => none
  | some ph =>
      some (dictInsert "binned_photons"
        (convolve2d ph (fun _ _ => 1) (2 * BHbin + 1) (2 * BHbin + 1)) dataset)

/-- One whitespace-delimited token of an ASC text file: either a numeric
token with its value, or a non-numeric token. -/
inductive Token where
  | num (q : ℚ)
  | bad
deriving DecidableEq

/-- Parse one line of tokens into numbers; any non-numeric token fails the
whole parse (as `np.loadtxt` raises `ValueError`). -/
def parseRow : List Token → Option (List ℚ)
  | [] => some []
  | Token.num q :: ts =>
      match parseRow ts with
      | some r => some (q :: r)
      | none => none
  | Token.bad :: _ => none

/-- Parse all rows; any row failure fails the whole load. -/
def parseRows : List (List Token) → Option (List (List ℚ))
  | [] => some []
  | r :: rs =>
      match parseRow r, parseRows rs with
      | some v, some vs => some (v :: vs)
      | _, _ => none

/-- `asc_load` (fileutils.py lines 25-34) on the token content of a file:
`np.loadtxt` skips blank lines, fails on any non-numeric token and on
ragged rows (inconsistent column counts), and otherwise returns the file's
own rows — it is given no expected shape and performs no reshaping.  On
failure the Python wrapper prints the error and then raises
`UnboundLocalError` at `return data`; either way no grid is returned,
embedded as `none`. -/
def asc_load (file : List (List Token)) : Option (List (List ℚ)) :=
  match parseRows (file.filter (fun r => !r.isEmpty)) with
  | none => none
  | some [] => some []
  | some (r :: rs) =>
      if rs.all (fun x => x.length == r.length) then some (r :: rs) else none

/-- Total number of tokens of a token file. -/
def tokenCount (file : List (List Token)) : ℕ :=
  (file.map List.length).sum

/-- Whether a token file already has exactly `h` lines of `w` tokens each. -/
def hasShape (file : List (List Token)) (hgt wdt : ℕ) : Prop :=
  file.length = hgt ∧ ∀ r ∈ file, r.length = wdt

/-- The numeric value carried by the `'%.6g'` rendering of `q` (the format
`np.savetxt` is called with in `asc_export`): `q` rounded to 6 significant
decimal digits.  Modelled at the rational level: with `e` the decimal
exponent of `|q|` (so `10^e ≤ |q| < 10^(e+1)`), round `q` to the nearest
multiple of `10^(e-5)` (half away from zero at ties, a tie-breaking detail
immaterial to the claims below). -/
def fmt6 (q : ℚ) : ℚ :=
  if q = 0 then 0
  else
    let s : ℤ := Int.log 10 |q| - 5
    (round (q / (10 : ℚ) ^ s) : ℚ) * (10 : ℚ) ^ s

/-- `asc_export` (fileutils.py lines 60-73) without the dry-run/logging
side effects: write one output line per grid row, each value rendered with
`np.savetxt(..., fmt='%.6g', delimiter=' ', newline='\n')`, so the token
written for a value `q` denotes `fmt6 q`. -/
def asc_export (g : List (List ℚ)) : List (List Token) :=
  g.map (fun row => row.map (fun q => Token.num (fmt6 q)))

/-- Remove every left-to-right non-overlapping occurrence of `pat` from
`s` — Python `s.replace(pat, "")`.  Structural recursion on a fuel bounded
by `s.length` (each step consumes at least one character of `s`). -/
def strRemoveAllAux : ℕ → List Char → List Char → List Char
  | _, _, [] => []
  | 0, _, s => s
  | f + 1, pat, c :: cs =>
      if pat.isPrefixOf (c :: cs) && !pat.isEmpty then
        strRemoveAllAux f pat ((c :: cs).drop pat.length)
      else c :: strRemoveAllAux f pat cs

/-- Python `s.replace(pat, "")`. -/
def strRemoveAll (pat s : List Char) : List Char :=
  strRemoveAllAux s.length pat s

/-- `os.path.splitext` for ordinary path names: split at the last dot, the
extension keeping the dot; `(s, "")` when there is no dot.  (The Python
corner cases for dotless or leading-dot base names do not arise in the
claims.) -/
def splitExt (s : List Char) : List Char × List Char :=
  let r := s.reverse
  let extRev := r.takeWhile (fun c => c != '.')
  match r.dropWhile (fun c => c != '.') with
  | [] => (s, [])
  | _ :: nameRev => (nameRev.reverse, '.' :: extRev.reverse)

/-- The `export_suffixes` list of `_asc_get_related_stem` (threshold-data.py
line 18), in source order. -/
def export_suffixes : List (List Char) :=
  ["a1".data, "a2".data, "t1".data, "t2".data, "a1[%]".data, "a2[%]".data,
   "chi".data, "phasor_G".data, "phasor_S".data, "scatter".data,
   "color coded value".data, "photons".data, "offset".data, "shift".data,
   "color_image".data]

/-- The suffix loop of `_asc_get_related_stem`: for each pattern in order,
if `name.endswith('_' + pattern)` return
`name.replace('_' + pattern, "")`. -/
def matchSuffix : List (List Char) → List Char → Option (List Char)
  | [], _ => none
  | p :: ps, name =>
      if ('_' :: p).isSuffixOf name then some (strRemoveAll ('_' :: p) name)
      else matchSuffix ps name

/-- `_asc_get_related_stem` (threshold-data.py lines 15-31): split off the
extension, try each export suffix in order; on a match return the name with
`'_' + pattern` removed (`str.replace` removes every occurrence).  When no
suffix matches, both fallback branches (the `.img` case and the warning
case) return the name unchanged. -/
def _asc_get_related_stem (path : List Char) : List Char :=
  let pr := splitExt path
  match matchSuffix export_suffixes pr.1 with
  | some stem => stem
  | none => pr.1

/-- The contribution of one threshold entry to the combined mask at a
pixel: false when the entry's kind is absent from the dataset, otherwise
the elementwise range test. -/
def entryFailed (dataset : List (String × Arr)) (t : String × ℚ × ℚ)
    (i j : ℕ) : Bool :=
  match dataset.lookup t.1 with
  | none => false
  | some a => decide (t.2.1 > a.val i j) || decide (a.val i j > t.2.2)

/-! ## Theorems -/

theorem combinedMaskFold_shape (dataset : List (String × Arr))
    (thresholds : List (String × ℚ × ℚ)) (init : BArr) :
    (combinedMaskFold dataset thresholds init).h = init.h ∧
    (combinedMaskFold dataset thresholds init).w = init.w := by
  induction thresholds generalizing init with
  | nil => exact ⟨rfl, rfl⟩
  | cons t ts ih =>
      simp only [combinedMaskFold, List.foldl_cons]
      cases hl : dataset.lookup t.1 with
      | none => simpa [combinedMaskFold, hl] using ih init
      | some a => simpa [combinedMaskFold, hl] using ih (bor init (thresholdFailed t.2.1 t.2.2 a))

theorem combinedMaskFold_val (dataset : List (String × Arr))
    (thresholds : List (String × ℚ × ℚ)) (init : BArr) (i j : ℕ) :
    (combinedMaskFold dataset thresholds init).val i j =
      (init.val i j || thresholds.any (fun t => entryFailed dataset t i j)) := by
  induction thresholds generalizing init with
  | nil => simp [combinedMaskFold]
  | cons t ts ih =>
      simp only [combinedMaskFold, List.foldl_cons, List.any_cons]
      cases hl : dataset.lookup t.1 with
      | none =>
          rw [show (List.foldl
              (fun mask t =>
                match dataset.lookup t.1 with
                | none => mask
                | some a => bor mask (thresholdFailed t.2.1 t.2.2 a))
              init ts) = combinedMaskFold dataset ts init from rfl, ih]
          simp [entryFailed, hl]
      | some a =>
          rw [show (List.foldl
              (fun mask t =>
                match dataset.lookup t.1 with
                | none => mask
                | some a => bor mask (thresholdFailed t.2.1 t.2.2 a))
              (bor init (thresholdFailed t.2.1 t.2.2 a)) ts) =
            combinedMaskFold dataset ts (bor init (thresholdFailed t.2.1 t.2.2 a)) from rfl, ih]
          simp [entryFailed, hl, bor, thresholdFailed, Bool.or_assoc]

/-- Claim C2: for a non-empty dataset, the combined mask starts from an
all-false mask shaped like the first member grid; a pixel ends up masked
exactly when some threshold entry whose kind is present in the dataset
fails there (`value < min` or `value > max`); and entries whose kind is
absent from the dataset are skipped, contributing nothing to the mask. -/
theorem combined_mask_spec (k0 : String) (a0 : Arr)
    (rest : List (String × Arr)) (thresholds : List (String × ℚ × ℚ)) :
    ((combinedMaskFold ((k0, a0) :: rest) thresholds (zeros_like a0)).h = a0.h ∧
     (combinedMaskFold ((k0, a0) :: rest) thresholds (zeros_like a0)).w = a0.w) ∧
    (∀ i j : ℕ,
      (combinedMaskFold ((k0, a0) :: rest) thresholds (zeros_like a0)).val i j = true ↔
        ∃ t ∈ thresholds, ∃ a : Arr, ((k0, a0) :: rest).lookup t.1 = some a ∧
          (a.val i j < t.2.1 ∨ t.2.2 < a.val i j)) ∧
    (∀ (k : String) (mn mx : ℚ) (ts1 ts2 : List (String × ℚ × ℚ)),
      ((k0, a0) :: rest).lookup k = none →
      ∀ i j : ℕ,
        (combinedMaskFold ((k0, a0) :: rest) (ts1 ++ (k, mn, mx) :: ts2)
            (zeros_like a0)).val i j =
        (combinedMaskFold ((k0, a0) :: rest) (ts1 ++ ts2)
            (zeros_like a0)).val i j) := by
  refine ⟨combinedMaskFold_shape _ _ _, ?_, ?_⟩
  · intro i j
    rw [combinedMaskFold_val]
    simp only [zeros_like, Bool.false_or, List.any_eq_true]
    constructor
    · rintro ⟨t, ht, hf⟩
      refine ⟨t, ht, ?_⟩
      unfold entryFailed at hf
      cases hl : ((k0, a0) :: rest).lookup t.1 with
      | none => rw [hl] at hf; simp at hf
      | some a =>
          rw [hl] at hf
          refine ⟨a, rfl, ?_⟩
          simpa [gt_iff_lt, Bool.or_eq_true, decide_eq_true_iff] using hf
    · rintro ⟨t, ht, a, hl, hf⟩
      refine ⟨t, ht, ?_⟩
      unfold entryFailed
      rw [hl]
      simpa [gt_iff_lt, Bool.or_eq_true, decide_eq_true_iff] using hf
  · intro k mn mx ts1 ts2 hnone i j
    rw [combinedMaskFold_val, combinedMaskFold_val]
    simp [List.any_append, List.any_cons, entryFailed, hnone]

/-- Witness for C2's skip conjunct: a threshold entry for a kind absent
from the dataset leaves the mask unchanged at a concrete pixel. -/
theorem combined_mask_spec_witness :
    (combinedMaskFold [("a1", ⟨1, 1, fun _ _ => 5⟩)]
        ([] ++ ("chi", 0, 2) :: [("a1", 0, 1)]) (zeros_like ⟨1, 1, fun _ _ => 5⟩)).val 0 0 =
    (combinedMaskFold [("a1", ⟨1, 1, fun _ _ => 5⟩)]
        ([] ++ [("a1", 0, 1)]) (zeros_like ⟨1, 1, fun _ _ => 5⟩)).val 0 0 :=
  (combined_mask_spec "a1" ⟨1, 1, fun _ _ => 5⟩ [] [("a1", 0, 1)]).2.2
    "chi" 0 2 [] [("a1", 0, 1)] rfl 0 0

/-- Claim C7: the combined mask is order-independent — permuting the
iteration order over the threshold entries yields a pixel-for-pixel
identical mask. -/
theorem combined_mask_order_independent (dataset : List (String × Arr))
    (ts1 ts2 : List (String × ℚ × ℚ)) (init : BArr)
    (hperm : ts1.Perm ts2) (i j : ℕ) :
    (combinedMaskFold dataset ts1 init).val i j =
      (combinedMaskFold dataset ts2 init).val i j := by
  rw [combinedMaskFold_val, combinedMaskFold_val]
  have hany : ts1.any (fun t => entryFailed dataset t i j) =
      ts2.any (fun t => entryFailed dataset t i j) := by
    rw [Bool.eq_iff_iff]
    simp only [List.any_eq_true]
    constructor
    · rintro ⟨t, ht, hf⟩; exact ⟨t, hperm.mem_iff.mp ht, hf⟩
    · rintro ⟨t, ht, hf⟩; exact ⟨t, hperm.mem_iff.mpr ht, hf⟩
  rw [hany]

/-- Witness for C7: swapping two concrete threshold entries leaves the
mask value at pixel (0,0) unchanged. -/
theorem combined_mask_order_independent_witness :
    (combinedMaskFold [("a1", ⟨1, 1, fun _ _ => 5⟩)]
        [("a1", 0, 1), ("chi", 0, 2)] (zeros_like ⟨1, 1, fun _ _ => 5⟩)).val 0 0 =
    (combinedMaskFold [("a1", ⟨1, 1, fun _ _ => 5⟩)]
        [("chi", 0, 2), ("a1", 0, 1)] (zeros_like ⟨1, 1, fun _ _ => 5⟩)).val 0 0 :=
  combined_mask_order_independent [("a1", ⟨1, 1, fun _ _ => 5⟩)]
    [("a1", 0, 1), ("chi", 0, 2)] [("chi", 0, 2), ("a1", 0, 1)]
    (zeros_like ⟨1, 1, fun _ _ => 5⟩) (List.Perm.swap _ _ _) 0 0

/-- Claim C8: the combined mask is monotone in the threshold
specification — extending the specification by one more range entry masks a
superset of the pixels, and in particular never decreases the number of
masked pixels. -/
theorem combined_mask_monotone (dataset : List (String × Arr))
    (thresholds : List (String × ℚ × ℚ)) (e : String × ℚ × ℚ) (init : BArr) :
    (∀ i j : ℕ,
      (combinedMaskFold dataset thresholds init).val i j = true →
      (combinedMaskFold dataset (thresholds ++ [e]) init).val i j = true) ∧
    maskedCount (combinedMaskFold dataset thresholds init) ≤
      maskedCount (combinedMaskFold dataset (thresholds ++ [e]) init) := by
  have hpt : ∀ i j : ℕ,
      (combinedMaskFold dataset thresholds init).val i j = true →
      (combinedMaskFold dataset (thresholds ++ [e]) init).val i j = true := by
    intro i j h
    rw [combinedMaskFold_val] at h ⊢
    rw [List.any_append]
    rcases Bool.or_eq_true_iff.mp h with h' | h'
    · simp [h']
    · simp [h']
  refine ⟨hpt, ?_⟩
  unfold maskedCount
  obtain ⟨hh1, hw1⟩ := combinedMaskFold_shape dataset thresholds init
  obtain ⟨hh2, hw2⟩ := combinedMaskFold_shape dataset (thresholds ++ [e]) init
  rw [hh1, hw1, hh2, hw2]
  refine Finset.sum_le_sum (fun i _ => Finset.sum_le_sum (fun j _ => ?_))
  by_cases hv : (combinedMaskFold dataset thresholds init).val i j = true
  · rw [hv, hpt i j hv]
  · simp [Bool.eq_false_iff.mpr hv]

/-- Witness for C8: a dataset whose single pixel is already masked by the
first threshold entry stays masked after a stricter entry is appended, and
the masked-pixel count does not decrease. -/
theorem combined_mask_monotone_witness :
    (combinedMaskFold [("a1", ⟨1, 1, fun _ _ => 5⟩)]
        ([("a1", 0, 1)] ++ [("chi", 0, 2)])
        (zeros_like ⟨1, 1, fun _ _ => 5⟩)).val 0 0 = true ∧
    maskedCount (combinedMaskFold [("a1", ⟨1, 1, fun _ _ => 5⟩)]
        [("a1", 0, 1)] (zeros_like ⟨1, 1, fun _ _ => 5⟩)) ≤
    maskedCount (combinedMaskFold [("a1", ⟨1, 1, fun _ _ => 5⟩)]
        ([("a1", 0, 1)] ++ [("chi", 0, 2)]) (zeros_like ⟨1, 1, fun _ _ => 5⟩)) :=
  ⟨(combined_mask_monotone [("a1", ⟨1, 1, fun _ _ => 5⟩)]
      [("a1", 0, 1)] ("chi", 0, 2) (zeros_like ⟨1, 1, fun _ _ => 5⟩)).1 0 0
      (by decide),
   (combined_mask_monotone [("a1", ⟨1, 1, fun _ _ => 5⟩)]
      [("a1", 0, 1)] ("chi", 0, 2) (zeros_like ⟨1, 1, fun _ _ => 5⟩)).2⟩

/-- Claim C1: for masked grids of equal shape, `free_bound_ratio` marks a
pixel invalid exactly when it was invalid in either input or either input's
raw value there is ≤ 0; a non-positive denominator masks the pixel
independently of the numerator; and every pixel that ends up unmasked holds
exactly `numerator / denominator`, with no clamping. -/
theorem free_bound_ratio_mask_and_value (m1 m2 : MArr)
    (hh : m1.data.h = m2.data.h) (hw : m1.data.w = m2.data.w) (i j : ℕ) :
    (((free_bound_ratio m1 m2).mask.val i j = true) ↔
      (m1.mask.val i j = true ∨ m2.mask.val i j = true ∨
        m1.data.val i j ≤ 0 ∨ m2.data.val i j ≤ 0)) ∧
    (m2.data.val i j ≤ 0 → (free_bound_ratio m1 m2).mask.val i j = true) ∧
    ((free_bound_ratio m1 m2).mask.val i j = false →
      (free_bound_ratio m1 m2).data.val i j =
        m1.data.val i j / m2.data.val i j) := by
  refine ⟨?_, ?_, ?_⟩
  · simp [free_bound_ratio, or_assoc]
  · intro h
    simp [free_bound_ratio, h]
  · intro _
    rfl

/-- Witness for C1 at a concrete unmasked pixel: numerator 6, denominator
3, both valid and positive, so the result value is exactly 6 / 3. -/
theorem free_bound_ratio_mask_and_value_witness :
    (free_bound_ratio ⟨⟨1, 1, fun _ _ => 6⟩, ⟨1, 1, fun _ _ => false⟩⟩
        ⟨⟨1, 1, fun _ _ => 3⟩, ⟨1, 1, fun _ _ => false⟩⟩).data.val 0 0 =
      (6 : ℚ) / 3 :=
  (free_bound_ratio_mask_and_value
      ⟨⟨1, 1, fun _ _ => 6⟩, ⟨1, 1, fun _ _ => false⟩⟩
      ⟨⟨1, 1, fun _ _ => 3⟩, ⟨1, 1, fun _ _ => false⟩⟩ rfl rfl 0 0).2.2
    (by decide)

/-- Claim C10: `threshold_reasonably` reads the first key of the dataset,
so it is only defined for non-empty datasets: the empty dataset yields the
embedded `IndexError` (`none`) rather than an empty result, while every
non-empty dataset yields a result. -/
theorem threshold_reasonably_needs_nonempty
    (thresholds : List (String × ℚ × ℚ)) :
    threshold_reasonably [] thresholds = none ∧
    ∀ (k0 : String) (a0 : Arr) (rest : List (String × Arr)),
      threshold_reasonably ((k0, a0) :: rest) thresholds =
        some (thresholdApply k0 a0 rest thresholds) := by
  exact ⟨rfl, fun _ _ _ => rfl⟩

theorem lookup_map_snd {α β : Type} (l : List (String × α)) (f : α → β)
    (k : String) :
    (l.map (fun p => (p.1, f p.2))).lookup k = (l.lookup k).map f := by
  induction l with
  | nil => rfl
  | cons hd tl ih =>
      simp only [List.map_cons, List.lookup]
      split <;> simp [ih]

theorem mem_dictInsert {α : Type} (k : String) (v : α)
    (l : List (String × α)) (p : String × α) (hp : p ∈ dictInsert k v l) :
    p = (k, v) ∨ p ∈ l := by
  unfold dictInsert at hp
  split at hp
  · obtain ⟨q, hq, hfq⟩ := List.mem_map.mp hp
    by_cases hk : q.1 == k
    · rw [if_pos hk] at hfq; exact Or.inl hfq.symm
    · rw [if_neg hk] at hfq; exact Or.inr (hfq ▸ hq)
  · rcases List.mem_append.mp hp with h | h
    · exact Or.inr h
    · simp at h; exact Or.inl h

/-- Claim C6: the invalidity mask is only ever widened.  Every grid in the
output of `thresholdApply` (the body of `threshold_reasonably` on a
non-empty dataset) carries a mask that includes the full combined mask,
whether or not its own kind contributed to it, and `free_bound_ratio`'s
mask is a superset of both of its inputs' masks: no combination step
un-marks an invalid pixel. -/
theorem mask_monotonically_widened :
    (∀ (k0 : String) (a0 : Arr) (rest : List (String × Arr))
       (thresholds : List (String × ℚ × ℚ)) (p : String × MArr),
      p ∈ thresholdApply k0 a0 rest thresholds →
      ∀ i j : ℕ,
        (combinedMaskFold ((k0, a0) :: rest) thresholds
            (zeros_like a0)).val i j = true →
        p.2.mask.val i j = true) ∧
    (∀ (m1 m2 : MArr) (i j : ℕ),
      m1.mask.val i j = true ∨ m2.mask.val i j = true →
      (free_bound_ratio m1 m2).mask.val i j = true) := by
  have hratio : ∀ (m1 m2 : MArr) (i j : ℕ),
      m1.mask.val i j = true ∨ m2.mask.val i j = true →
      (free_bound_ratio m1 m2).mask.val i j = true := by
    intro m1 m2 i j h
    rcases h with h | h <;> simp [free_bound_ratio, h]
  refine ⟨?_, hratio⟩
  intro k0 a0 rest thresholds p hp i j hcm
  unfold thresholdApply at hp
  set dataset := (k0, a0) :: rest with hds
  set cm := combinedMaskFold dataset thresholds (zeros_like a0) with hcmdef
  set nd := dataset.map (fun p => (p.1, wrapMask cm p.2)) with hnd
  have hmem_nd : ∀ q : String × MArr, q ∈ nd → q.2.mask = cm := by
    intro q hq
    obtain ⟨r, _, hrq⟩ := List.mem_map.mp hq
    rw [← hrq]
    rfl
  have hlk : ∀ s : String, ∀ m : MArr, nd.lookup s = some m → m.mask = cm := by
    intro s m hm
    rw [hnd, lookup_map_snd] at hm
    cases hl : dataset.lookup s with
    | none => rw [hl] at hm; simp at hm
    | some a =>
        rw [hl] at hm
        simp at hm
        rw [← hm]
        rfl
  simp only at hp
  cases h1 : nd.lookup "a1" with
  | none =>
      rw [h1] at hp
      exact (hmem_nd p hp) ▸ hcm
  | some m1 =>
      cases h2 : nd.lookup "a2" with
      | none =>
          rw [h1, h2] at hp
          exact (hmem_nd p hp) ▸ hcm
      | some m2 =>
          rw [h1, h2] at hp
          rcases mem_dictInsert _ _ _ _ hp with hpe | hpm
          · rw [hpe]
            exact hratio m1 m2 i j (Or.inl ((hlk "a1" m1 h1) ▸ hcm))
          · exact (hmem_nd p hpm) ▸ hcm

/-- Witness for C6: in a two-quantity dataset whose pixel fails the `a1`
threshold, the exported `a2` grid (which itself passed every threshold) is
masked at that pixel, and a pixel invalid in a ratio input is invalid in
the ratio. -/
theorem mask_monotonically_widened_witness :
    ("a2", wrapMask
        (combinedMaskFold [("a1", ⟨1, 1, fun _ _ => 5⟩), ("a2", ⟨1, 1, fun _ _ => 2⟩)]
          [("a1", 0, 1)] (zeros_like ⟨1, 1, fun _ _ => 5⟩))
        ⟨1, 1, fun _ _ => 2⟩).2.mask.val 0 0 = true ∧
    (free_bound_ratio ⟨⟨1, 1, fun _ _ => 6⟩, ⟨1, 1, fun _ _ => true⟩⟩
        ⟨⟨1, 1, fun _ _ => 3⟩, ⟨1, 1, fun _ _ => false⟩⟩).mask.val 0 0 = true :=
  ⟨mask_monotonically_widened.1 "a1" ⟨1, 1, fun _ _ => 5⟩
      [("a2", ⟨1, 1, fun _ _ => 2⟩)] [("a1", 0, 1)]
      ("a2", wrapMask
        (combinedMaskFold [("a1", ⟨1, 1, fun _ _ => 5⟩), ("a2", ⟨1, 1, fun _ _ => 2⟩)]
          [("a1", 0, 1)] (zeros_like ⟨1, 1, fun _ _ => 5⟩))
        ⟨1, 1, fun _ _ => 2⟩)
      (by
        unfold thresholdApply
        simp only [List.map_cons, List.map_nil]
        exact List.mem_cons_of_mem _ (List.mem_cons_self _ _))
      0 0 (by decide),
   mask_monotonically_widened.2
      ⟨⟨1, 1, fun _ _ => 6⟩, ⟨1, 1, fun _ _ => true⟩⟩
      ⟨⟨1, 1, fun _ _ => 3⟩, ⟨1, 1, fun _ _ => false⟩⟩ 0 0 (Or.inl rfl)⟩

/-- The all-ones 3×3 photon grid of the spec's example. -/
def ones3 : Arr :=
  ⟨3, 3, fun _ _ => 1⟩

/-- Claim C9: `binned_photon_count` (the `convolve2d` call of
`add_binned_photons` with an all-ones kernel of side `2*half_window+1`,
`boundary='fill'`, `fillvalue=0`, `mode='same'`) returns at every pixel the
sum of the photon counts over the square window of that side centred on
the pixel, out-of-bounds positions contributing zero; on a 3×3 all-ones
grid with half-window 1 the interior value is 9 and every corner value
is 4. -/
theorem binned_photon_count_window_sum :
    (∀ (a : Arr) (b : ℕ) (i j : ℕ),
      (convolve2d a (fun _ _ => 1) (2 * b + 1) (2 * b + 1)).val i j =
        ∑ k ∈ Finset.range (2 * b + 1), ∑ l ∈ Finset.range (2 * b + 1),
          padVal a ((i : ℤ) - b + k) ((j : ℤ) - b + l)) ∧
    (convolve2d ones3 (fun _ _ => 1) 3 3).val 1 1 = 9 ∧
    (convolve2d ones3 (fun _ _ => 1) 3 3).val 0 0 = 4 ∧
    (convolve2d ones3 (fun _ _ => 1) 3 3).val 0 2 = 4 ∧
    (convolve2d ones3 (fun _ _ => 1) 3 3).val 2 0 = 4 ∧
    (convolve2d ones3 (fun _ _ => 1) 3 3).val 2 2 = 4 := by
  have hgen : ∀ (a : Arr) (b : ℕ) (i j : ℕ),
      (convolve2d a (fun _ _ => 1) (2 * b + 1) (2 * b + 1)).val i j =
        ∑ k ∈ Finset.range (2 * b + 1), ∑ l ∈ Finset.range (2 * b + 1),
          padVal a ((i : ℤ) - b + k) ((j : ℤ) - b + l) := by
    intro a b i j
    have hctr : ((2 * b + 1 - 1) / 2 : ℕ) = b := by omega
    show (∑ k ∈ Finset.range (2 * b + 1), ∑ l ∈ Finset.range (2 * b + 1),
        (1 : ℚ) * padVal a ((i : ℤ) + ((2 * b + 1 - 1) / 2 : ℕ) - k)
                          ((j : ℤ) + ((2 * b + 1 - 1) / 2 : ℕ) - l)) = _
    rw [hctr]
    rw [← Finset.sum_range_reflect
      (fun k => ∑ l ∈ Finset.range (2 * b + 1),
        padVal a ((i : ℤ) - b + k) ((j : ℤ) - b + l)) (2 * b + 1)]
    refine Finset.sum_congr rfl (fun k hk => ?_)
    have hk' : k ≤ 2 * b := by
      have := Finset.mem_range.mp hk; omega
    have hkint : ((2 * b + 1 - 1 - k : ℕ) : ℤ) = 2 * b - k := by omega
    have hkpos : (i : ℤ) - b + ((2 * b + 1 - 1 - k : ℕ) : ℤ) = (i : ℤ) + b - k := by
      rw [hkint]; ring
    rw [hkpos]
    rw [← Finset.sum_range_reflect
      (fun l => padVal a ((i : ℤ) + b - k) ((j : ℤ) - b + l)) (2 * b + 1)]
    refine Finset.sum_congr rfl (fun l hl => ?_)
    have hl' : l ≤ 2 * b := by
      have := Finset.mem_range.mp hl; omega
    have hlint : ((2 * b + 1 - 1 - l : ℕ) : ℤ) = 2 * b - l := by omega
    have hlpos : (j : ℤ) - b + ((2 * b + 1 - 1 - l : ℕ) : ℤ) = (j : ℤ) + b - l := by
      rw [hlint]; ring
    rw [hlpos, one_mul]
  refine ⟨hgen, ?_, ?_, ?_, ?_, ?_⟩ <;>
  · simp only [convolve2d, Finset.sum_range_succ, Finset.sum_range_zero]
    norm_num [padVal, ones3]

/-- Witness for C9's general window-sum identity at a concrete boundary
pixel: the corner of the 3×3 all-ones grid sums four in-bounds ones and
five zero pads. -/
theorem binned_photon_count_window_sum_witness :
    (convolve2d ones3 (fun _ _ => 1) (2 * 1 + 1) (2 * 1 + 1)).val 0 0 =
      ∑ k ∈ Finset.range (2 * 1 + 1), ∑ l ∈ Finset.range (2 * 1 + 1),
        padVal ones3 ((0 : ℤ) - 1 + k) ((0 : ℤ) - 1 + l) :=
  binned_photon_count_window_sum.1 ones3 1 0 0

theorem export_suffixes_pairwise :
    ∀ p1 ∈ export_suffixes, ∀ p2 ∈ export_suffixes,
      p1 = p2 ∨ ('_' :: p1).isSuffixOf ('_' :: p2) = false := by
  decide

theorem matchSuffix_of_unique (ps : List (List Char)) (name : List Char)
    (p : List Char) (hp : p ∈ ps)
    (hsfx : ('_' :: p).isSuffixOf name = true)
    (huniq : ∀ q ∈ ps, q = p ∨ ('_' :: q).isSuffixOf name = false) :
    matchSuffix ps name = some (strRemoveAll ('_' :: p) name) := by
  induction ps with
  | nil => simp at hp
  | cons q qs ih =>
      by_cases hq : q = p
      · subst hq
        unfold matchSuffix
        rw [hsfx]
        simp
      · have hqf : ('_' :: q).isSuffixOf name = false := by
          rcases huniq q (List.mem_cons_self q qs) with h | h
          · exact absurd h hq
          · exact h
        unfold matchSuffix
        rw [hqf]
        simp only [Bool.false_eq_true, if_false]
        have hpqs : p ∈ qs := by
          rcases List.mem_cons.mp hp with h | h
          · exact absurd h.symm hq
          · exact h
        exact ih hpqs (fun r hr => huniq r (List.mem_cons_of_mem q hr))

/-- Claim C5, counterexample: the source removes the matched `'_' + suffix`
with `str.replace`, which removes every occurrence, not only the trailing
one: on `"pos_0000_a1_a1.asc"` the stem comes out as `"pos_0000"`, not the
claimed `"pos_0000_a1"` (name with only the trailing suffix occurrence
removed). -/
theorem stem_of_trailing_only_counterexample :
    _asc_get_related_stem ("pos_0000_a1_a1.asc".data) = "pos_0000".data ∧
    "pos_0000".data ≠ "pos_0000_a1".data := by
  exact ⟨by decide, by decide⟩

/-- Claim C5, amended: for every path whose extension-stripped name ends
in `'_'` plus any recognized quantity-kind suffix, `_asc_get_related_stem`
returns the name with every occurrence of that `'_' + suffix` removed
(Python `str.replace` removes all occurrences; when the suffix occurs once
this is exactly the trailing occurrence).  No two distinct recognized
`'_' + suffix` strings are suffixes of one another, so the matched suffix
is the one the name ends with — in particular `a1[%]` is never conflated
with the shorter `a1` — and the spec's two examples hold:
`stem_of("pos_0000_a1.asc") = "pos_0000"` and
`stem_of("pos_0000_a1[%].asc") = "pos_0000"`. -/
theorem stem_of_removes_all_occurrences :
    (∀ p ∈ export_suffixes, ∀ path : List Char,
      ('_' :: p).isSuffixOf (splitExt path).1 = true →
      _asc_get_related_stem path = strRemoveAll ('_' :: p) (splitExt path).1) ∧
    _asc_get_related_stem ("pos_0000_a1.asc".data) = "pos_0000".data ∧
    _asc_get_related_stem ("pos_0000_a1[%].asc".data) = "pos_0000".data := by
  refine ⟨?_, by decide, by decide⟩
  intro p hp path hsfx
  have huniq : ∀ q ∈ export_suffixes,
      q = p ∨ ('_' :: q).isSuffixOf (splitExt path).1 = false := by
    intro q hq
    by_cases hqp : q = p
    · exact Or.inl hqp
    · right
      by_contra hcon
      have hqt : ('_' :: q).isSuffixOf (splitExt path).1 = true := by
        cases h : ('_' :: q).isSuffixOf (splitExt path).1 with
        | true => rfl
        | false => exact absurd h hcon
      have hqs : ('_' :: q) <:+ (splitExt path).1 :=
        List.isSuffixOf_iff_suffix.mp hqt
      have hps : ('_' :: p) <:+ (splitExt path).1 :=
        List.isSuffixOf_iff_suffix.mp hsfx
      rcases List.suffix_or_suffix_of_suffix hqs hps with h | h
      · rcases export_suffixes_pairwise q hq p hp with he | he
        · exact hqp he
        · have ht : ('_' :: q).isSuffixOf ('_' :: p) = true :=
            List.isSuffixOf_iff_suffix.mpr h
          simp [he] at ht
      · rcases export_suffixes_pairwise p hp q hq with he | he
        · exact hqp he.symm
        · have ht : ('_' :: p).isSuffixOf ('_' :: q) = true :=
            List.isSuffixOf_iff_suffix.mpr h
          simp [he] at ht
  rw [show _asc_get_related_stem path =
      (match matchSuffix export_suffixes (splitExt path).1 with
        | some stem => stem
        | none => (splitExt path).1) from rfl]
  rw [matchSuffix_of_unique export_suffixes (splitExt path).1 p hp hsfx huniq]

theorem parseRow_of_bad (r : List Token) (h : Token.bad ∈ r) :
    parseRow r = none := by
  induction r with
  | nil => simp at h
  | cons t ts ih =>
      cases t with
      | bad => rfl
      | num q =>
          have hm : Token.bad ∈ ts := by
            rcases List.mem_cons.mp h with h' | h'
            · exact absurd h' (by simp)
            · exact h'
          simp [parseRow, ih hm]

theorem parseRows_none (l : List (List Token)) (r : List Token)
    (hr : r ∈ l) (hn : parseRow r = none) : parseRows l = none := by
  induction l with
  | nil => simp at hr
  | cons hd tl ih =>
      rcases List.mem_cons.mp hr with h | h
      · subst h
        simp [parseRows, hn]
      · cases hp : parseRow hd with
        | none => simp [parseRows, hp]
        | some v => simp [parseRows, hp, ih h]

/-- Claim C3, counterexample: `asc_load` is given no expected shape and
performs no shape validation.  A well-formed numeric file of 6 tokens in
two rows of three is loaded successfully against an expected 2×2 grid,
although its token count matches neither the expected flat size `2*2` nor
the expected 2-D shape — the claim says it must fail there. -/
theorem asc_load_shape_unchecked_counterexample :
    tokenCount [[Token.num 1, Token.num 2, Token.num 3],
                [Token.num 4, Token.num 5, Token.num 6]] = 6 ∧
    (6 : ℕ) ≠ 2 * 2 ∧
    ¬ hasShape [[Token.num 1, Token.num 2, Token.num 3],
                [Token.num 4, Token.num 5, Token.num 6]] 2 2 ∧
    asc_load [[Token.num 1, Token.num 2, Token.num 3],
              [Token.num 4, Token.num 5, Token.num 6]] =
      some [[1, 2, 3], [4, 5, 6]] := by
  exact ⟨by decide, by decide, by unfold hasShape; decide, by decide⟩

/-- Claim C3, amended: `asc_load` fails (returns no grid) whenever any
token is non-numeric, and when it does return a grid, the grid is exactly
the file's own parsed rows (ragged rows also fail); no expected-shape check
of any kind is performed. -/
theorem asc_load_parse_behavior (f : List (List Token)) :
    ((∃ r ∈ f, Token.bad ∈ r) → asc_load f = none) ∧
    (∀ g, asc_load f = some g →
      parseRows (f.filter (fun r => !r.isEmpty)) = some g ∧
      ∀ r₁ ∈ g, ∀ r₂ ∈ g, r₁.length = r₂.length) := by
  constructor
  · rintro ⟨r, hr, hbad⟩
    have hne : r ∈ f.filter (fun r => !r.isEmpty) := by
      refine List.mem_filter.mpr ⟨hr, ?_⟩
      cases r with
      | nil => simp at hbad
      | cons a as => simp
    unfold asc_load
    rw [parseRows_none _ r hne (parseRow_of_bad r hbad)]
  · intro g hg
    unfold asc_load at hg
    cases hp : parseRows (f.filter (fun r => !r.isEmpty)) with
    | none => rw [hp] at hg; simp at hg
    | some rows =>
        rw [hp] at hg
        cases rows with
        | nil =>
            dsimp only at hg
            have hge : ([] : List (List ℚ)) = g := Option.some.inj hg
            subst hge
            exact ⟨rfl, by simp⟩
        | cons r rs =>
            dsimp only at hg
            by_cases hall : rs.all (fun x => x.length == r.length) = true
            · rw [if_pos hall] at hg
              have hge : r :: rs = g := Option.some.inj hg
              subst hge
              refine ⟨rfl, ?_⟩
              have hlen : ∀ x ∈ rs, x.length = r.length := by
                intro x hx
                exact eq_of_beq (List.all_eq_true.mp hall x hx)
              intro r₁ h₁ r₂ h₂
              have l1 : r₁.length = r.length := by
                rcases List.mem_cons.mp h₁ with h | h
                · rw [h]
                · exact hlen _ h
              have l2 : r₂.length = r.length := by
                rcases List.mem_cons.mp h₂ with h | h
                · rw [h]
                · exact hlen _ h
              rw [l1, l2]
            · rw [if_neg hall] at hg
              simp at hg

/-- Witness for C3 (amended): a file containing a non-numeric token loads
to nothing. -/
theorem asc_load_parse_behavior_witness :
    asc_load [[Token.num 1], [Token.bad]] = none :=
  (asc_load_parse_behavior [[Token.num 1], [Token.bad]]).1
    ⟨[Token.bad], by decide, by decide⟩

theorem log10_eq (r : ℚ) (e : ℤ) (h0 : 0 < r) (h1 : (10 : ℚ) ^ e ≤ r)
    (h2 : r < (10 : ℚ) ^ (e + 1)) : Int.log 10 r = e := by
  have hb : 1 < (10 : ℕ) := by norm_num
  have hle : e ≤ Int.log 10 r :=
    (Int.zpow_le_iff_le_log hb h0).mp (by exact_mod_cast h1)
  have hlt : Int.log 10 r < e + 1 :=
    (Int.lt_zpow_iff_log_lt hb h0).mp (by exact_mod_cast h2)
  omega

theorem fmt6_eval (q : ℚ) (e : ℤ) (hq : 0 < q) (h1 : (10 : ℚ) ^ e ≤ q)
    (h2 : q < (10 : ℚ) ^ (e + 1)) :
    fmt6 q = (round (q / (10 : ℚ) ^ (e - 5)) : ℚ) * (10 : ℚ) ^ (e - 5) := by
  unfold fmt6
  rw [if_neg (ne_of_gt hq), abs_of_pos hq, log10_eq q e hq h1 h2]

theorem parseRow_map_num (row : List ℚ) :
    parseRow (row.map (fun q => Token.num (fmt6 q))) = some (row.map fmt6) := by
  induction row with
  | nil => rfl
  | cons q qs ih => simp [parseRow, ih]

theorem parseRows_export (g : List (List ℚ))
    (hfix : ∀ r ∈ g, ∀ q ∈ r, fmt6 q = q) :
    parseRows (g.map (fun row => row.map (fun q => Token.num (fmt6 q)))) =
      some g := by
  induction g with
  | nil => rfl
  | cons r rs ih =>
      have hr : r.map fmt6 = r := by
        have hq := hfix r (List.mem_cons_self r rs)
        calc r.map fmt6 = r.map id := List.map_congr_left (fun q hqm => hq q hqm)
          _ = r := List.map_id r
      simp [parseRows, parseRow_map_num, hr,
        ih (fun x hx => hfix x (List.mem_cons_of_mem _ hx))]

/-- Claim C4, counterexample: the export format is `'%.6g'` — 6 significant
digits, not the claimed 7.  The 7-significant-digit value 1000003 does not
round-trip: it is written as `1.00000e+06` and loads back as 1000000. -/
theorem asc_roundtrip_seven_digits_counterexample :
    asc_load (asc_export [[1000003]]) = some [[1000000]] ∧
    (1000000 : ℚ) ≠ 1000003 := by
  constructor
  · have h6 : fmt6 1000003 = 1000000 := by
      rw [fmt6_eval 1000003 6 (by norm_num) (by norm_num) (by norm_num)]
      norm_num [round_eq]
    rw [show asc_export [[1000003]] = [[Token.num 1000000]] by
      simp [asc_export, h6]]
    decide
  · norm_num

/-- Claim C4, amended: `asc_export` writes one row per output line with the
fixed-precision format `'%.6g'` (6 significant digits, not 7), and
`load(save(g)) = g` holds within that precision: every rectangular grid
with non-empty rows whose values carry at most 6 significant digits (are
fixed by `fmt6`) round-trips exactly. -/
theorem asc_roundtrip_six_digits (g : List (List ℚ))
    (hne : ∀ r ∈ g, r ≠ [])
    (hrect : ∀ r₁ ∈ g, ∀ r₂ ∈ g, r₁.length = r₂.length)
    (hfix : ∀ r ∈ g, ∀ q ∈ r, fmt6 q = q) :
    asc_load (asc_export g) = some g := by
  have hfilter : (asc_export g).filter (fun r => !r.isEmpty) = asc_export g := by
    rw [List.filter_eq_self]
    intro r hr
    obtain ⟨row, hrow, hmap⟩ := List.mem_map.mp hr
    rw [← hmap]
    cases hrec : row with
    | nil => exact absurd hrec (hne row hrow)
    | cons a as => simp
  unfold asc_load
  rw [hfilter]
  show (match parseRows (asc_export g) with
    | none => none
    | some [] => some []
    | some (r :: rs) =>
        if rs.all (fun x => x.length == r.length) then some (r :: rs)
        else none) = some g
  rw [show parseRows (asc_export g) = some g from parseRows_export g hfix]
  cases g with
  | nil => rfl
  | cons r rs =>
      dsimp only
      rw [if_pos]
      rw [List.all_eq_true]
      intro x hx
      exact beq_iff_eq.mpr
        (hrect x (List.mem_cons_of_mem _ hx) r (List.mem_cons_self r rs))

/-- Witness for C4 (amended): the 1×1 grid holding 2 (representable in 6
significant digits) round-trips exactly. -/
theorem asc_roundtrip_six_digits_witness :
    asc_load (asc_export [[2]]) = some [[2]] :=
  asc_roundtrip_six_digits [[2]] (by simp) (by simp) (by
    intro r hr q hq
    simp at hr
    subst hr
    simp at hq
    subst hq
    rw [fmt6_eval 2 0 (by norm_num) (by norm_num) (by norm_num)]
    norm_num [round_eq])

/-- Witness for C5 (amended) at the recognized suffix `a1[%]` and the
concrete path `pos_0000_a1[%].asc`. -/
theorem stem_of_removes_all_occurrences_witness :
    _asc_get_related_stem ("pos_0000_a1[%].asc".data) =
      strRemoveAll ('_' :: "a1[%]".data)
        (splitExt ("pos_0000_a1[%].asc".data)).1 :=
  stem_of_removes_all_occurrences.1 ("a1[%]".data) (by decide)
    ("pos_0000_a1[%].asc".data) (by decide)

/-- Witness for C10: the empty dataset with an empty threshold
specification yields the embedded exception. -/
theorem threshold_reasonably_needs_nonempty_witness :
    threshold_reasonably [] [] = none :=
  (threshold_reasonably_needs_nonempty []).1

end FlimFit
